import Mathlib

/-!
Verification of the deterministic scoring / ranking / validation core of the
Agentic-Prioritisation repository: a shallow embedding of
`src/core/frc_score.py`, `src/project/core/scoring.py`,
`src/project/core/prioritizer.py`, `src/agent/critic_agent.py` and
`src/validation/validator.py`, followed by theorems settling the frozen
claims about that code.

Modelling conventions:
* Python floats are modelled as exact rationals (`ℚ`); `round(x, d)` is
  modelled as decimal rounding with ties to even (`pyRound`), and the
  f-string format `:.2f` as `fmt2` built from the same rounding.
* Python dict field access `d["k"]` on possibly-missing keys is modelled by
  `Option` fields; an access that can raise makes the embedded function
  return `Option`/`Except` (`none`/`.error` = the Python call raises).
* Python `sorted(..., key=k, reverse=True)` is a stable descending sort; a
  stable sort with respect to a total preorder has a unique result, embedded
  here as the stable insertion sort `keySort`.
-/

/-- Character-list version of Python's `str.startswith`: `pat` begins `l`. -/
def startsWithChars : List Char → List Char → Bool
  | _, [] => true
  | [], _ :: _ => false
  | a :: as, b :: bs => a = b && startsWithChars as bs

/-- Character-list version of Python's substring test `pat in l`. -/
def containsChars (pat : List Char) : List Char → Bool
  | [] => startsWithChars [] pat
  | c :: rest => startsWithChars (c :: rest) pat || containsChars pat rest

/-- Python `pat in hay` for strings (contiguous substring test). -/
def containsStr (hay pat : String) : Bool :=
  containsChars pat.toList hay.toList

/-- Python `s.lower()` (ASCII lowering, which covers every string the code
manipulates). -/
def strLower (s : String) : String :=
  String.mk (s.toList.map Char.toLower)

/-- Python `s.startswith(pat)`. -/
def startsWithStr (s pat : String) : Bool :=
  startsWithChars s.toList pat.toList

/-- Number of occurrences of character `c` in `s` (Python `s.count(c)` for a
single-character needle). -/
def charCount (s : String) (c : Char) : Nat :=
  s.toList.count c

/-- Round a rational to the nearest integer, ties to even — the rounding mode
of Python's `round`. -/
def halfEven (q : ℚ) : ℤ :=
  if q - ⌊q⌋ < 1/2 then ⌊q⌋
  else if 1/2 < q - ⌊q⌋ then ⌊q⌋ + 1
  else if ⌊q⌋ % 2 = 0 then ⌊q⌋ else ⌊q⌋ + 1

/-- Python `round(q, d)` on the exact rational model. -/
def pyRound (q : ℚ) (d : Nat) : ℚ :=
  (halfEven (q * 10 ^ d) : ℚ) / 10 ^ d

/-- Render a nonnegative cent count as a two-decimal numeral, e.g.
`fmt2Cents 50 = "0.50"`. -/
def fmt2Cents (c : ℤ) : String :=
  toString (c / 100) ++ "." ++ (if c % 100 < 10 then "0" else "") ++ toString (c % 100)

/-- Python `f"{q:.2f}"` on the exact rational model. -/
def fmt2 (q : ℚ) : String :=
  if halfEven (q * 100) < 0 then "-" ++ fmt2Cents (-(halfEven (q * 100)))
  else fmt2Cents (halfEven (q * 100))

/-- A test-case record (`data/testcases.json` schema).  Every field is an
`Option` so that the two error-handling policies of the code — strict
`tc["field"]` access and lenient `tc.get("field", default)` access — can both
be embedded faithfully. -/
structure TestCase where
  id : Option ℤ
  name : Option String
  component : Option String
  selector : Option String
  ui_element : Option String
  execution_time : Option ℚ
  last_result : Option String
  flaky : Option Bool
deriving DecidableEq, Repr

/-- The shape of a feedback entry's `result` value: a plain status string, a
dict (whose `status` key may be absent), or any other malformed value
(`None`, a number, ...). -/
inductive ResultShape where
  | rstr (s : String)
  | robj (status : Option String)
  | rother
deriving DecidableEq, Repr

/-- A feedback entry: `test_id` plus an optional `result` key (`none` models
the key being absent from the dict). -/
structure FeedbackEntry where
  test_id : ℤ
  result : Option ResultShape
deriving DecidableEq, Repr

/-- The `COMPONENT_CRITICALITY` table of `src/core/frc_score.py`, in its
Python insertion order (substring lookup iterates in this order). -/
def COMPONENT_CRITICALITY : List (String × ℚ) :=
  [("login", 1), ("authentication", 1), ("auth", 1), ("checkout", 0.95),
   ("payment", 0.95), ("cart", 0.9), ("profile", 0.7), ("dashboard", 0.6),
   ("settings", 0.5), ("search", 0.7), ("navigation", 0.5), ("footer", 0.2),
   ("header", 0.4), ("sidebar", 0.4), ("homepage", 0.3)]

/-- Exact-key lookup in an association list (Python `key in dict` + access). -/
def lookupExact : List (String × ℚ) → String → Option ℚ
  | [], _ => none
  | (k, v) :: rest, s => if k = s then some v else lookupExact rest s

/-- First table key that occurs as a substring of `s` (the fallback loop of
`_get_component_criticality`). -/
def lookupSub : List (String × ℚ) → String → Option ℚ
  | [], _ => none
  | (k, v) :: rest, s => if containsStr s k then some v else lookupSub rest s

/-- `_get_component_criticality` of `src/core/frc_score.py`. -/
def getComponentCriticality (component : String) : ℚ :=
  ((lookupExact COMPONENT_CRITICALITY (strLower component)).orElse
    (fun _ => lookupSub COMPONENT_CRITICALITY (strLower component))).getD (1/2)

/-- Last `n` elements of a list (Python `l[-n:]`). -/
def takeLast (n : Nat) (l : List α) : List α :=
  l.drop (l.length - n)

/-- The recency-weighted failure sum of `_compute_failure_history_score`:
entry at distance `d` from the most recent one contributes `(1/2)^d` when it
is a `"fail"`. -/
def recentWeight : List String → ℚ
  | [] => 0
  | s :: rest => (if s = "fail" then (1/2) ^ rest.length else 0) + recentWeight rest

/-- The list comprehension
`[f["result"]["status"] for f in feedback_history if f["test_id"] == test_id]`
of `_compute_failure_history_score`.  A matching entry whose `result` is not
a dict carrying a `status` key makes the comprehension raise (`none`). -/
def frcStatuses (tid : ℤ) : List FeedbackEntry → Option (List String)
  | [] => some []
  | f :: fs =>
    if f.test_id = tid then
      match f.result with
      | some (ResultShape.robj (some st)) => (frcStatuses tid fs).map (st :: ·)
      | _ => none
    else frcStatuses tid fs

/-- `_compute_failure_history_score` of `src/core/frc_score.py`.  Note the
Python guard `if not test_id` is truthiness: an id of `0` also short-circuits
to `0.0`. -/
def computeFailureHistoryScore (tc : TestCase) (fh : List FeedbackEntry) : Option ℚ :=
  match tc.id with
  | none => some 0
  | some tid =>
    if tid = 0 ∨ fh = [] then some 0
    else
      (frcStatuses tid fh).map (fun results =>
        if results = [] then 0
        else
          let total := results.length
          let failures := results.count "fail"
          let failure_rate : ℚ := if 0 < total then (failures : ℚ) / (total : ℚ) else 0
          let rw := recentWeight (takeLast 5 results)
          min (0.7 * failure_rate + 0.3 * min (rw / 5) 1) 1)

/-- `selector.count("[") > 1` and the position-predicate regex both look at
bracket characters; this is the bracket count. -/
def bracketCount (s : String) : Nat :=
  charCount s '['

/-- After an opening bracket: does the remainder begin with one or more
digits followed by a closing bracket?  (The tail of `re.search(r"\[\d+\]")`.) -/
def digitsThenClose (l : List Char) : Bool :=
  (l.takeWhile Char.isDigit) ≠ [] && (l.dropWhile Char.isDigit).head? = some ']'

/-- `re.search(r"\[\d+\]", s)`: the string contains a bracketed run of one or
more digits. -/
def hasNumIdx : List Char → Bool
  | [] => false
  | c :: rest => (c = '[' && digitsThenClose rest) || hasNumIdx rest

/-- `re.search(r"\[.*PAT", s)` for a literal tail pattern `PAT`: some `[` is
followed (at any distance) by the pattern.  (`.` is modelled as any
character; selectors contain no newlines.) -/
def hasAfterBracket (pat : List Char) : List Char → Bool
  | [] => false
  | c :: rest => (c = '[' && containsChars pat rest) || hasAfterBracket pat rest

/-- `_compute_selector_fragility_score` of `src/core/frc_score.py`. -/
def computeSelectorFragility (selector : String) : ℚ :=
  if selector = "" then 1/2
  else if startsWithStr selector "//" || startsWithStr selector ".//" || startsWithStr selector "/" then
    let f : ℚ := 0.3
      + (if 0 < bracketCount selector ∧ hasNumIdx selector.toList then 0.4 else 0)
      + (if 1 < bracketCount selector then 0.2 else 0)
    min f 1
  else
    let nesting : Nat := max (charCount selector ' ') (charCount selector '>')
    let f0 : ℚ := min ((nesting : ℚ) * 0.05) 0.2
    let f1 : ℚ := f0 + (if hasAfterBracket ['*', '='] selector.toList then 0.15 else 0)
    let f2 : ℚ := f1 + (if hasAfterBracket ['^', '='] selector.toList then 0.1 else 0)
    let f3 : ℚ := if startsWithStr selector "#" then max 0 (f2 - 0.2) else f2
    min f3 1

/-- `compute_frc` of `src/core/frc_score.py`.  `none` = the Python call
raises (which happens exactly when the failure-history comprehension hits a
matching entry whose `result` is not a dict with a `status` key). -/
def compute_frc (tc : TestCase) (change_summary : String) (fh : List FeedbackEntry) : Option ℚ :=
  (computeFailureHistoryScore tc fh).map (fun fhs =>
    let crit := getComponentCriticality (tc.component.getD "")
    let frag := computeSelectorFragility (tc.selector.getD "")
    let flak : ℚ := if tc.flaky.getD false then 1 else 0
    pyRound (min (0.4 * fhs + 0.3 * crit + 0.2 * frag + 0.1 * flak) 1) 4)

/-- Status extraction of `compute_risk_score` (`src/project/core/scoring.py`
lines 32-38): both the dict form and the plain-string form are accepted,
anything else becomes `"unknown"`. -/
def statusOf (r : Option ResultShape) : String :=
  match r with
  | some (ResultShape.robj st) => st.getD "unknown"
  | some (ResultShape.rstr s) => s
  | _ => "unknown"

/-- The per-test chronological status list built by `compute_risk_score`. -/
def riskHistory (tid : ℤ) (fh : List FeedbackEntry) : List String :=
  (fh.filter (fun f => f.test_id = tid)).map (fun f => statusOf f.result)

/-- `compute_risk_score` of `src/project/core/scoring.py`.  The function is
strict about `component`, `ui_element`, `selector`, `id` and
`execution_time`: a missing field raises `KeyError`, embedded as
`Except.error` carrying the name of the first missing field in the order the
Python code accesses them. -/
def compute_risk_score (tc : TestCase) (change_summary : String)
    (fh : List FeedbackEntry) : Except String (ℤ × String) :=
  match tc.component with
  | none => Except.error "component"
  | some comp =>
  match tc.ui_element with
  | none => Except.error "ui_element"
  | some ui =>
  match tc.selector with
  | none => Except.error "selector"
  | some sel =>
  match tc.id with
  | none => Except.error "id"
  | some tid =>
  match tc.execution_time with
  | none => Except.error "execution_time"
  | some et =>
    let compMatch := containsStr (strLower change_summary) (strLower comp)
    let uiMatch := ui = "textbox" ∨ ui = "button" ∨ ui = "dropdown"
    let selMatch := containsStr change_summary sel
    let hist := riskHistory tid fh
    let failures := hist.count "fail"
    let passes := hist.count "pass"
    let recent := takeLast 3 hist
    let score : ℤ :=
      (if compMatch then 5 else 0)
      + (if uiMatch then 2 else 0)
      + (if selMatch then 3 else 0)
      + (if 0 < failures then 2 ^ failures else 0)
      + (if "fail" ∈ hist ∧ "pass" ∈ hist then 3 else 0)
      + (if 3 ≤ passes ∧ failures = 0 then -2 else 0)
      + (if 2 ≤ recent.count "fail" then 4 else 0)
      + (if 4 < et then -1 else 0)
    let reasons : List String :=
      (if compMatch then ["Component changed"] else [])
      ++ (if uiMatch then ["Important UI element"] else [])
      ++ (if selMatch then ["Selector match"] else [])
      ++ (if 0 < failures then [toString failures ++ " historical failures"] else [])
      ++ (if "fail" ∈ hist ∧ "pass" ∈ hist then ["Flaky behavior detected"] else [])
      ++ (if 3 ≤ passes ∧ failures = 0 then ["Consistently stable test"] else [])
      ++ (if 2 ≤ recent.count "fail" then ["Recent failure trend"] else [])
      ++ (if 4 < et then ["Slow test penalty"] else [])
    Except.ok (score, if reasons = [] then "No major risk factors" else String.intercalate ", " reasons)

/-- `compute_combined_score` of `src/project/core/scoring.py`.  `none` = the
Python call raises (a strict risk-scorer field is missing, or — in FRC mode —
`compute_frc` raises). -/
def compute_combined_score (tc : TestCase) (change_summary : String)
    (fh : List FeedbackEntry) (use_frc : Bool) : Option (ℚ × String) :=
  match compute_risk_score tc change_summary fh with
  | Except.error _ => none
  | Except.ok (risk_score, risk_reason) =>
    if use_frc = false then some ((risk_score : ℚ), risk_reason)
    else
      match compute_frc tc change_summary fh with
      | none => none
      | some frc_score =>
        let nr0 : ℚ := if risk_score ≠ 0 then (risk_score : ℚ) / ((|risk_score| : ℤ) + 10) else 0
        let normalized_risk : ℚ := max 0 (min nr0 1)
        let llm_weight : ℚ := 0.5
        let combined := pyRound (0.4 * normalized_risk + 0.4 * frc_score + 0.2 * llm_weight) 4
        let reason := "Risk:" ++ fmt2 normalized_risk ++ " + FRC:" ++ fmt2 frc_score
          ++ " + LLM:0.5 = Combined:" ++ fmt2 combined
        some (combined, reason)

/-- Stable insertion step: `x` is placed before the first element `y` with
`le x y` (for a descending sort, `le x y` = "x's key is ≥ y's key").  The
element being inserted is the one that came earliest in the original list,
so placing it before equal-key elements is exactly Python's sort stability. -/
def keyInsert (le : α → α → Bool) (x : α) : List α → List α
  | [] => [x]
  | y :: ys => if le x y then x :: y :: ys else y :: keyInsert le x ys

/-- Stable sort with respect to the Boolean preorder `le` — the embedding of
Python's `sorted` (whose result is determined by stability once the preorder
is fixed). -/
def keySort (le : α → α → Bool) : List α → List α
  | [] => []
  | x :: xs => keyInsert le x (keySort le xs)

/-- `llm_priority.index(x[0]) if x[0] in llm_priority else 999` from
`prioritize_tests` (`src/project/core/prioritizer.py` line 60). -/
def advRank (llm : List ℤ) (tid : ℤ) : ℤ :=
  if tid ∈ llm then (llm.indexOf tid : ℤ) else 999

/-- The comparison realised by
`sorted(scored, key=lambda x: (x[1], advRank), reverse=True)`:
`x` may come before `y` iff `x`'s key tuple is ≥ `y`'s in lexicographic
order (Python's `reverse=True` inverts the whole tuple comparison while
keeping the sort stable). -/
def rankKeyGe (llm : List ℤ) (x y : ℤ × ℤ) : Bool :=
  decide (y.2 < x.2) || (decide (x.2 = y.2) && decide (advRank llm y.1 ≤ advRank llm x.1))

/-- Stage 3 of `prioritize_tests` (`src/project/core/prioritizer.py` lines
55-63): the scored `(id, score)` pairs sorted by score descending with the
advisory-position tuple tie-break, `reverse=True`, stable. -/
def rankStage (scored : List (ℤ × ℤ)) (llm : List ℤ) : List (ℤ × ℤ) :=
  keySort (rankKeyGe llm) scored

/-- The id → testcase dict built by `CriticAgent.__init__`
(`{tc["id"]: tc for tc in testcases}`); `none` = some record lacks an `id`
key and the comprehension raises. -/
def criticMap (tcs : List TestCase) : Option (List (ℤ × TestCase)) :=
  tcs.mapM (fun tc => tc.id.map (fun i => (i, tc)))

/-- Python dict lookup on the association list built by `criticMap`: a later
entry with the same id overwrites an earlier one, so the last match wins. -/
def criticFind (m : List (ℤ × TestCase)) (i : ℤ) : Option TestCase :=
  ((m.filter (fun p => p.1 = i)).getLast?).map (fun p => p.2)

/-- The penalty comparison of `CriticAgent.critique`:
`sorted(corrected, key=lambda x: x[1], reverse=True)`. -/
def penKeyGe (x y : ℤ × ℤ) : Bool :=
  decide (y.2 ≤ x.2)

/-- The `(test_id, penalty)` list built by the loop of
`CriticAgent.critique` (`src/agent/critic_agent.py` lines 8-15): −5 when the
test's component does not occur in the change summary, else 0.  `none` = the
Python code raises (unknown id, or a record without `id`/`component`). -/
def criticPairs (tcs : List TestCase) (prioritized : List ℤ)
    (change_summary : String) : Option (List (ℤ × ℤ)) := do
  let m ← criticMap tcs
  prioritized.mapM (fun tid => do
    let tc ← criticFind m tid
    let comp ← tc.component
    pure (tid, if containsStr (strLower change_summary) (strLower comp) then (0 : ℤ) else -5))

/-- `CriticAgent.critique` of `src/agent/critic_agent.py`. -/
def critique (tcs : List TestCase) (prioritized : List ℤ)
    (change_summary : String) : Option (List ℤ) :=
  (criticPairs tcs prioritized change_summary).map
    (fun pairs => (keySort penKeyGe pairs).map Prod.fst)

/-- The 1-indexed failing positions collected by the loop
`for rank, test_id in enumerate(prioritized_order, start=1)` of
`APFDValidator.compute_apfd`; `rank` is the enumeration counter. -/
def failPositionsFrom (failing : Finset ℤ) (rank : Nat) : List ℤ → List Nat
  | [] => []
  | t :: rest =>
    if t ∈ failing then rank :: failPositionsFrom failing (rank + 1) rest
    else failPositionsFrom failing (rank + 1) rest

/-- `APFDValidator.compute_apfd` of `src/validation/validator.py` (lines
49-90). -/
def compute_apfd (prioritized_order : List ℤ) (failing_tests : Finset ℤ) : ℚ :=
  if failing_tests = ∅ then 1
  else
    let n := prioritized_order.length
    let m := failing_tests.card
    if m = 0 ∨ n = 0 then 1
    else
      let sum_positions := (failPositionsFrom failing_tests 1 prioritized_order).sum
      pyRound (1 - ((sum_positions : ℚ) / ((n : ℚ) * (m : ℚ))) + 1 / (2 * (n : ℚ))) 4

/-- The scan loop of `APFDValidator.calculate_wasted_effort`
(`src/validation/validator.py` lines 315-325): walk the order, counting
failing encounters and non-failing ("wasted") ones, and stop as soon as the
failing-encounter count reaches the size of the failing set. -/
def wastedGo (failing : Finset ℤ) (found wasted : Nat) : List ℤ → Nat
  | [] => wasted
  | t :: rest =>
    let found2 := if t ∈ failing then found + 1 else found
    let wasted2 := if t ∈ failing then wasted else wasted + 1
    if found2 = failing.card then wasted2 else wastedGo failing found2 wasted2 rest

/-- `APFDValidator.calculate_wasted_effort` of `src/validation/validator.py`. -/
def calculate_wasted_effort (prioritized_order : List ℤ) (failing_tests : Finset ℤ) : Nat :=
  if failing_tests = ∅ then 0
  else wastedGo failing_tests 0 0 prioritized_order

/-- Spec-side scan for wasted effort, written from the spec's words: a
prefix scan over the order that accumulates the set of seen ids and stops as
soon as every failing id has been seen, counting the non-failing ids
encountered on the way. -/
def specWastedGo (failing : Finset ℤ) (seen : Finset ℤ) : List ℤ → Nat
  | [] => 0
  | t :: rest =>
    (if t ∈ failing then 0 else 1)
    + (if failing ⊆ insert t seen then 0 else specWastedGo failing (insert t seen) rest)

/-- Spec-side wasted effort: `0` when there are no failing ids, otherwise
the stopping prefix scan of `specWastedGo`. -/
def specWasted (order : List ℤ) (failing : Finset ℤ) : Nat :=
  if failing = ∅ then 0 else specWastedGo failing ∅ order

theorem keyInsert_perm (le : α → α → Bool) (x : α) (l : List α) :
    List.Perm (keyInsert le x l) (x :: l) := by
  induction l with
  | nil => simp [keyInsert]
  | cons y ys ih =>
    simp only [keyInsert]
    split
    · exact List.Perm.refl _
    · exact (ih.cons y).trans (List.Perm.swap x y ys)

theorem keyInsert_mem {le : α → α → Bool} {x z : α} {l : List α} :
    z ∈ keyInsert le x l ↔ z = x ∨ z ∈ l := by
  rw [(keyInsert_perm le x l).mem_iff]; simp

theorem keySort_perm (le : α → α → Bool) (l : List α) :
    List.Perm (keySort le l) l := by
  induction l with
  | nil => simp [keySort]
  | cons x xs ih => exact (keyInsert_perm le x (keySort le xs)).trans (ih.cons x)

theorem keyInsert_pairwise {le : α → α → Bool}
    (htrans : ∀ a b c, le a b = true → le b c = true → le a c = true)
    (htot : ∀ a b, le a b = true ∨ le b a = true)
    (x : α) {l : List α} (h : l.Pairwise (fun a b => le a b = true)) :
    (keyInsert le x l).Pairwise (fun a b => le a b = true) := by
  induction l with
  | nil => simp [keyInsert]
  | cons y ys ih =>
    rw [List.pairwise_cons] at h
    obtain ⟨hy, hys⟩ := h
    simp only [keyInsert]
    cases hxy : le x y with
    | true =>
      simp only [hxy, if_true]
      refine List.pairwise_cons.mpr ⟨?_, List.pairwise_cons.mpr ⟨hy, hys⟩⟩
      intro z hz
      rcases List.mem_cons.mp hz with rfl | hz2
      · exact hxy
      · exact htrans x y z hxy (hy z hz2)
    | false =>
      simp only [hxy, Bool.false_eq_true, if_false]
      refine List.pairwise_cons.mpr ⟨?_, ih hys⟩
      intro z hz
      rcases keyInsert_mem.mp hz with rfl | hz2
      · rcases htot y z with hyx | hxy2
        · exact hyx
        · rw [hxy2] at hxy; exact absurd hxy (by simp)
      · exact hy z hz2

theorem keySort_pairwise {le : α → α → Bool}
    (htrans : ∀ a b c, le a b = true → le b c = true → le a c = true)
    (htot : ∀ a b, le a b = true ∨ le b a = true)
    (l : List α) :
    (keySort le l).Pairwise (fun a b => le a b = true) := by
  induction l with
  | nil => simp [keySort]
  | cons x xs ih => exact keyInsert_pairwise htrans htot x ih

theorem keyInsert_filter {le : α → α → Bool} {p : α → Bool}
    (hp : ∀ a b, p a = true → p b = true → le a b = true)
    (x : α) (l : List α) :
    (keyInsert le x l).filter p = if p x then x :: l.filter p else l.filter p := by
  induction l with
  | nil =>
    simp only [keyInsert, List.filter]
    cases p x <;> simp
  | cons y ys ih =>
    simp only [keyInsert]
    cases hxy : le x y with
    | true => simp [hxy, List.filter_cons]
    | false =>
      cases hpx : p x with
      | false =>
        simp only [hxy, Bool.false_eq_true, if_false, List.filter_cons, ih, hpx]
      | true =>
        have hpy : p y = false := by
          cases hpy : p y with
          | false => rfl
          | true => rw [hp x y hpx hpy] at hxy; exact absurd hxy (by simp)
        simp only [hxy, Bool.false_eq_true, if_false, List.filter_cons, ih, hpx, hpy]

theorem keySort_filter {le : α → α → Bool} {p : α → Bool}
    (hp : ∀ a b, p a = true → p b = true → le a b = true)
    (l : List α) :
    (keySort le l).filter p = l.filter p := by
  induction l with
  | nil => rfl
  | cons x xs ih =>
    simp only [keySort]
    rw [keyInsert_filter hp, ih, List.filter_cons]

theorem rankKeyGe_trans (llm : List ℤ) :
    ∀ a b c, rankKeyGe llm a b = true → rankKeyGe llm b c = true → rankKeyGe llm a c = true := by
  intro a b c hab hbc
  simp only [rankKeyGe, Bool.or_eq_true, Bool.and_eq_true, decide_eq_true_eq] at *
  omega

theorem rankKeyGe_total (llm : List ℤ) :
    ∀ a b, rankKeyGe llm a b = true ∨ rankKeyGe llm b a = true := by
  intro a b
  simp only [rankKeyGe, Bool.or_eq_true, Bool.and_eq_true, decide_eq_true_eq]
  omega

/-- C1 (amended): in the ranking stage of `prioritize_tests` the output is a
permutation of the scored batch ordered primarily by score descending, and —
because `reverse=True` inverts the whole key tuple — among equal scores the
tie-break is the advisory position descending: a later advisory position
comes first, and ids absent from the advisory order (sentinel rank 999) sort
before all advisory-ranked ids of the same score. -/
theorem C1_rank_stage_order : ∀ (scored : List (ℤ × ℤ)) (llm : List ℤ),
    (rankStage scored llm).Pairwise (fun x y => rankKeyGe llm x y = true)
    ∧ List.Perm (rankStage scored llm) scored := by
  intro scored llm
  exact ⟨keySort_pairwise (rankKeyGe_trans llm) (rankKeyGe_total llm) scored,
    keySort_perm (rankKeyGe llm) scored⟩

/-- C1 counterexample: with two tests of equal score 5 and advisory order
`[1, 2]`, the id with the earlier advisory position (id 1, position 0) comes
out last, not first; and with advisory order `[2]`, the id absent from the
advisory order sorts before — not after — the advisory-ranked id of the same
score. -/
theorem C1_counterexample :
    (advRank [1, 2] 1 < advRank [1, 2] 2
      ∧ rankStage [(1, 5), (2, 5)] [1, 2] = [(2, 5), (1, 5)])
    ∧ ((1 : ℤ) ∉ ([2] : List ℤ)
      ∧ rankStage [(1, 5), (2, 5)] [2] = [(1, 5), (2, 5)]) := by
  decide

/-- C6: both ranking stages are stable.  First conjunct: in the score-based
ranking stage, the tests with a given score that are absent from the advisory
list appear in the output in their original relative order (their sublist is
unchanged).  Second conjunct: whenever the critic's `(id, penalty)` pass
succeeds, `critique` is exactly the stable penalty sort of those pairs, and
the pairs sharing any given penalty keep their relative order from the prior
stage. -/
theorem C6_stable_sorts :
    (∀ (scored : List (ℤ × ℤ)) (llm : List ℤ) (s : ℤ),
      (rankStage scored llm).filter (fun x => decide (x.2 = s) && decide (x.1 ∉ llm))
        = scored.filter (fun x => decide (x.2 = s) && decide (x.1 ∉ llm)))
    ∧ (∀ (tcs : List TestCase) (prio : List ℤ) (cs : String) (pen : ℤ)
        (pairs : List (ℤ × ℤ)), criticPairs tcs prio cs = some pairs →
        critique tcs prio cs = some ((keySort penKeyGe pairs).map Prod.fst)
        ∧ (keySort penKeyGe pairs).filter (fun x => decide (x.2 = pen))
            = pairs.filter (fun x => decide (x.2 = pen))) := by
  constructor
  · intro scored llm s
    apply keySort_filter
    intro a b ha hb
    simp only [Bool.and_eq_true, decide_eq_true_eq] at ha hb
    have h999a : advRank llm a.1 = 999 := by simp [advRank, ha.2]
    have h999b : advRank llm b.1 = 999 := by simp [advRank, hb.2]
    simp [rankKeyGe, ha.1, hb.1, h999a, h999b]
  · intro tcs prio cs pen pairs h
    refine ⟨by simp [critique, h], ?_⟩
    apply keySort_filter
    intro a b ha hb
    simp only [decide_eq_true_eq] at ha hb
    simp [penKeyGe, ha, hb]

def tcC6w : TestCase :=
  { id := some 1, name := none, component := some "cart", selector := some "#c",
    ui_element := some "button", execution_time := some 1, last_result := none,
    flaky := none }

theorem C6_witness :
    critique [tcC6w] [1] "x" = some ((keySort penKeyGe [(1, -5)]).map Prod.fst)
    ∧ (keySort penKeyGe [(1, -5)]).filter (fun x => decide (x.2 = -5))
        = [((1 : ℤ), (-5 : ℤ))].filter (fun x => decide (x.2 = -5)) :=
  C6_stable_sorts.2 [tcC6w] [1] "x" (-5) [(1, -5)] (by decide)

theorem failPositionsFrom_congr {f1 f2 : Finset ℤ} (k : Nat) (l : List ℤ)
    (h : ∀ t ∈ l, (t ∈ f1 ↔ t ∈ f2)) :
    failPositionsFrom f1 k l = failPositionsFrom f2 k l := by
  induction l generalizing k with
  | nil => rfl
  | cons a rest ih =>
    have ha := h a (List.mem_cons_self a rest)
    have hrest : ∀ t ∈ rest, (t ∈ f1 ↔ t ∈ f2) :=
      fun t ht => h t (List.mem_cons_of_mem a ht)
    by_cases haf : a ∈ f1
    · simp only [failPositionsFrom, if_pos haf, if_pos (ha.mp haf), ih (k + 1) hrest]
    · simp only [failPositionsFrom, if_neg haf, if_neg (fun hc => haf (ha.mpr hc)),
        ih (k + 1) hrest]

theorem failPositionsFrom_sum (order : List ℤ) (failing : Finset ℤ) (k : Nat)
    (hnd : order.Nodup) (hmem : ∀ t ∈ failing, t ∈ order) :
    (failPositionsFrom failing k order).sum
      = ∑ t ∈ failing, (k + List.indexOf t order) := by
  induction order generalizing failing k with
  | nil =>
    have : failing = ∅ := Finset.eq_empty_of_forall_not_mem (fun t ht => by
      simpa using hmem t ht)
    simp [this, failPositionsFrom]
  | cons a rest ih =>
    rw [List.nodup_cons] at hnd
    obtain ⟨hanr, hndr⟩ := hnd
    by_cases haf : a ∈ failing
    · have hcongr : failPositionsFrom failing (k + 1) rest
          = failPositionsFrom (failing.erase a) (k + 1) rest := by
        apply failPositionsFrom_congr
        intro t ht
        constructor
        · intro htf
          exact Finset.mem_erase.mpr ⟨fun he => hanr (he ▸ ht), htf⟩
        · intro hte
          exact (Finset.mem_erase.mp hte).2
      have hmem2 : ∀ t ∈ failing.erase a, t ∈ rest := by
        intro t ht
        obtain ⟨hta, htf⟩ := Finset.mem_erase.mp ht
        rcases List.mem_cons.mp (hmem t htf) with rfl | h2
        · exact absurd rfl hta
        · exact h2
      have hsum := ih (failing.erase a) (k + 1) hndr hmem2
      have hstep : ∀ t ∈ failing.erase a,
          (k + 1) + List.indexOf t rest = k + List.indexOf t (a :: rest) := by
        intro t ht
        obtain ⟨hta, _⟩ := Finset.mem_erase.mp ht
        rw [List.indexOf_cons_ne rest (fun he => hta he.symm)]
        omega
      calc (failPositionsFrom failing k (a :: rest)).sum
          = k + (failPositionsFrom (failing.erase a) (k + 1) rest).sum := by
            simp [failPositionsFrom, if_pos haf, hcongr]
        _ = k + ∑ t ∈ failing.erase a, ((k + 1) + List.indexOf t rest) := by rw [hsum]
        _ = k + ∑ t ∈ failing.erase a, (k + List.indexOf t (a :: rest)) := by
            rw [Finset.sum_congr rfl hstep]
        _ = (k + List.indexOf a (a :: rest)) + ∑ t ∈ failing.erase a,
              (k + List.indexOf t (a :: rest)) := by
            rw [List.indexOf_cons_self]; omega
        _ = ∑ t ∈ failing, (k + List.indexOf t (a :: rest)) :=
            Finset.add_sum_erase failing (fun t => k + List.indexOf t (a :: rest)) haf
    · have hmem2 : ∀ t ∈ failing, t ∈ rest := by
        intro t ht
        rcases List.mem_cons.mp (hmem t ht) with rfl | h2
        · exact absurd ht haf
        · exact h2
      have hsum := ih failing (k + 1) hndr hmem2
      have hstep : ∀ t ∈ failing,
          (k + 1) + List.indexOf t rest = k + List.indexOf t (a :: rest) := by
        intro t ht
        rw [List.indexOf_cons_ne rest (fun he => haf (by rw [he]; exact ht))]
        omega
      calc (failPositionsFrom failing k (a :: rest)).sum
          = (failPositionsFrom failing (k + 1) rest).sum := by
            simp [failPositionsFrom, if_neg haf]
        _ = ∑ t ∈ failing, ((k + 1) + List.indexOf t rest) := hsum
        _ = ∑ t ∈ failing, (k + List.indexOf t (a :: rest)) :=
            Finset.sum_congr rfl hstep

theorem halfEven_of_lt (f : ℤ) (q : ℚ) (h1 : (f : ℚ) ≤ q) (h2 : q - f < 1/2) :
    halfEven q = f := by
  have hfl : ⌊q⌋ = f := Int.floor_eq_iff.mpr ⟨h1, by linarith⟩
  rw [halfEven, hfl, if_pos h2]

theorem halfEven_of_gt (f : ℤ) (q : ℚ) (h1 : 1/2 < q - f) (h2 : q < (f : ℚ) + 1) :
    halfEven q = f + 1 := by
  have hfl : ⌊q⌋ = f := Int.floor_eq_iff.mpr ⟨by linarith, by linarith⟩
  rw [halfEven, hfl, if_neg (by linarith), if_pos h1]

theorem pyRound_eq_of_lt (f : ℤ) (q : ℚ) (d : ℕ)
    (h1 : (f : ℚ) ≤ q * 10 ^ d) (h2 : q * 10 ^ d - f < 1/2) :
    pyRound q d = (f : ℚ) / 10 ^ d := by
  rw [pyRound, halfEven_of_lt f (q * 10 ^ d) h1 h2]

theorem pyRound_eq_of_gt (f : ℤ) (q : ℚ) (d : ℕ)
    (h1 : 1/2 < q * 10 ^ d - f) (h2 : q * 10 ^ d < (f : ℚ) + 1) :
    pyRound q d = ((f : ℚ) + 1) / 10 ^ d := by
  rw [pyRound, halfEven_of_gt f (q * 10 ^ d) h1 h2]
  push_cast
  ring

theorem apfd_formula_general :
    ∀ (order : List ℤ) (failing : Finset ℤ), order.Nodup →
      (∀ t ∈ failing, t ∈ order) →
      compute_apfd order failing =
        if failing = ∅ ∨ order = [] then 1
        else pyRound (1 - ((∑ t ∈ failing, ((List.indexOf t order : ℚ) + 1))
          / ((order.length : ℚ) * (failing.card : ℚ)))
          + 1 / (2 * (order.length : ℚ))) 4 := by
  intro order failing hnd hmem
  by_cases hf : failing = ∅
  · simp [compute_apfd, hf]
  · by_cases ho : order = []
    · refine absurd (Finset.eq_empty_of_forall_not_mem (fun t ht => ?_)) hf
      rw [ho] at hmem
      simpa using hmem t ht
    · have hm : failing.card ≠ 0 := fun hc => hf (Finset.card_eq_zero.mp hc)
      have hn : order.length ≠ 0 := fun hc => ho (List.length_eq_zero.mp hc)
      rw [if_neg (by push_neg; exact ⟨hf, ho⟩)]
      simp only [compute_apfd, if_neg hf]
      rw [if_neg (by push_neg; exact ⟨hm, hn⟩)]
      have hsum := failPositionsFrom_sum order failing 1 hnd hmem
      congr 1
      rw [hsum]
      push_cast
      rw [Finset.sum_congr rfl (fun t _ => by ring_nf :
        ∀ t ∈ failing, ((1 : ℚ) + (List.indexOf t order : ℚ))
          = ((List.indexOf t order : ℚ) + 1))]

/-- C3: on a duplicate-free order containing every failing id,
`compute_apfd` returns `1 - sum_of_ranks/(n*m) + 1/(2n)` rounded to 4
decimal places, where the rank of a failing id is one plus its index in the
order; it returns 1 when the failing set or the order is empty; and on the
literal example (n = 5, failing ids at ranks 1 and 2) it returns 0.8. -/
theorem C3_apfd_formula :
    (∀ (order : List ℤ) (failing : Finset ℤ), order.Nodup →
      (∀ t ∈ failing, t ∈ order) →
      compute_apfd order failing =
        if failing = ∅ ∨ order = [] then 1
        else pyRound (1 - ((∑ t ∈ failing, ((List.indexOf t order : ℚ) + 1))
          / ((order.length : ℚ) * (failing.card : ℚ)))
          + 1 / (2 * (order.length : ℚ))) 4)
    ∧ compute_apfd [1, 2, 3, 4, 5] {1, 2} = 4 / 5 := by
  refine ⟨apfd_formula_general, ?_⟩
  rw [apfd_formula_general [1, 2, 3, 4, 5] {1, 2} (by decide) (by decide),
    if_neg (by decide)]
  have hsum : (∑ t ∈ ({1, 2} : Finset ℤ),
      ((List.indexOf t [1, 2, 3, 4, 5] : ℚ) + 1)) = 3 := by
    rw [show ({1, 2} : Finset ℤ) = insert 1 {2} from rfl,
      Finset.sum_insert (by decide), Finset.sum_singleton,
      show List.indexOf (1 : ℤ) [1, 2, 3, 4, 5] = 0 from by decide,
      show List.indexOf (2 : ℤ) [1, 2, 3, 4, 5] = 1 from by decide]
    norm_num
  rw [hsum, show (([1, 2, 3, 4, 5] : List ℤ).length : ℚ) = 5 from by norm_num,
    show ((({1, 2} : Finset ℤ)).card : ℚ) = 2 from by norm_num [show ({1, 2} : Finset ℤ).card = 2 from by decide],
    show (1 - (3 : ℚ) / (5 * 2) + 1 / (2 * 5) : ℚ) = 4 / 5 from by norm_num,
    pyRound_eq_of_lt 8000 (4 / 5) 4 (by norm_num) (by norm_num)]
  norm_num

theorem C3_witness :
    compute_apfd [1, 2, 3, 4, 5] ({1, 2} : Finset ℤ) =
      if ({1, 2} : Finset ℤ) = ∅ ∨ ([1, 2, 3, 4, 5] : List ℤ) = [] then 1
      else pyRound (1 - ((∑ t ∈ ({1, 2} : Finset ℤ),
          ((List.indexOf t [1, 2, 3, 4, 5] : ℚ) + 1))
        / ((([1, 2, 3, 4, 5] : List ℤ).length : ℚ) * ((({1, 2} : Finset ℤ)).card : ℚ)))
        + 1 / (2 * (([1, 2, 3, 4, 5] : List ℤ).length : ℚ))) 4 :=
  C3_apfd_formula.1 [1, 2, 3, 4, 5] {1, 2} (by decide) (by decide)

theorem failPositionsFrom_eq_nil (failing : Finset ℤ) (k : Nat) (order : List ℤ)
    (h : ∀ t ∈ order, t ∉ failing) : failPositionsFrom failing k order = [] := by
  induction order generalizing k with
  | nil => rfl
  | cons a rest ih =>
    rw [failPositionsFrom, if_neg (h a (List.mem_cons_self a rest))]
    exact ih (k + 1) (fun t ht => h t (List.mem_cons_of_mem a ht))

theorem compute_apfd_disjoint (order : List ℤ) (failing : Finset ℤ)
    (ho : order ≠ []) (hf : failing ≠ ∅) (hdis : ∀ t ∈ failing, t ∉ order) :
    compute_apfd order failing = pyRound (1 + 1 / (2 * (order.length : ℚ))) 4 := by
  have hm : failing.card ≠ 0 := fun hc => hf (Finset.card_eq_zero.mp hc)
  have hn : order.length ≠ 0 := fun hc => ho (List.length_eq_zero.mp hc)
  have hnil : failPositionsFrom failing 1 order = [] :=
    failPositionsFrom_eq_nil failing 1 order (fun t ht htf => hdis t htf ht)
  simp only [compute_apfd, if_neg hf]
  rw [if_neg (by push_neg; exact ⟨hm, hn⟩), hnil]
  norm_num

theorem le_halfEven (q : ℚ) : q - 1/2 ≤ (halfEven q : ℚ) := by
  have h1 := Int.floor_le q
  have h2 := Int.lt_floor_add_one q
  rw [halfEven]
  split_ifs <;> push_cast <;> linarith

theorem halfEven_le (q : ℚ) : (halfEven q : ℚ) ≤ q + 1/2 := by
  have h1 := Int.floor_le q
  have h2 := Int.lt_floor_add_one q
  rw [halfEven]
  split_ifs <;> push_cast <;> linarith

theorem one_lt_pyRound4 (e : ℚ) (h : 1/10000 ≤ e) : 1 < pyRound (1 + e) 4 := by
  have hle := le_halfEven ((1 + e) * 10 ^ 4)
  have h2 : (10 ^ 4 : ℚ) + 1/2 ≤ (halfEven ((1 + e) * 10 ^ 4) : ℚ) := by
    have : (10 ^ 4 : ℚ) + 1 ≤ (1 + e) * 10 ^ 4 := by nlinarith
    linarith
  have h3 : (10 ^ 4 : ℤ) < halfEven ((1 + e) * 10 ^ 4) := by
    exact_mod_cast lt_of_lt_of_le (by norm_num : (10 ^ 4 : ℚ) < 10 ^ 4 + 1/2) h2
  have h4 : ((10 ^ 4 : ℤ) : ℚ) + 1 ≤ (halfEven ((1 + e) * 10 ^ 4) : ℚ) := by
    exact_mod_cast Int.add_one_le_iff.mpr h3
  rw [pyRound, lt_div_iff (by norm_num : (0 : ℚ) < 10 ^ 4)]
  push_cast at h4
  linarith

/-- C10 (amended): when no failing id occurs in a non-empty order,
`compute_apfd` returns `round(1 + 1/(2n), 4)`; this value is strictly
greater than 1 whenever `n ≤ 5000` (for large enough `n` — e.g. `n = 20000`
— the rounding collapses it back to exactly 1). -/
theorem C10_apfd_disjoint :
    ∀ (order : List ℤ) (failing : Finset ℤ), order ≠ [] → failing ≠ ∅ →
      (∀ t ∈ failing, t ∉ order) →
      compute_apfd order failing = pyRound (1 + 1 / (2 * (order.length : ℚ))) 4
      ∧ (order.length ≤ 5000 → 1 < compute_apfd order failing) := by
  intro order failing ho hf hdis
  have heq := compute_apfd_disjoint order failing ho hf hdis
  refine ⟨heq, fun hlen => ?_⟩
  rw [heq]
  apply one_lt_pyRound4
  have hn : order.length ≠ 0 := fun hc => ho (List.length_eq_zero.mp hc)
  have hpos : 0 < (order.length : ℚ) := by
    exact_mod_cast Nat.pos_of_ne_zero hn
  have hle : (order.length : ℚ) ≤ 5000 := by exact_mod_cast hlen
  rw [div_le_div_iff (by norm_num) (by linarith)]
  linarith

theorem C10_witness :
    compute_apfd [1] ({2} : Finset ℤ)
      = pyRound (1 + 1 / (2 * ((([1] : List ℤ)).length : ℚ))) 4
    ∧ (([1] : List ℤ).length ≤ 5000 → 1 < compute_apfd [1] ({2} : Finset ℤ)) :=
  C10_apfd_disjoint [1] {2} (by decide) (by decide) (by decide)

/-- The order `[0, 1, ..., 19999]` used to exhibit the rounding collapse of
the APFD value for disjoint failing sets. -/
def bigOrder : List ℤ :=
  (List.range 20000).map (fun k : ℕ => (k : ℤ))

/-- C10 counterexample: for the 20000-test order and the disjoint failing
set `{-1}`, `compute_apfd` returns exactly 1 — `round(1 + 1/40000, 4) = 1.0`
— so the claimed strict bound `> 1` fails. -/
theorem C10_counterexample :
    bigOrder ≠ [] ∧ ({-1} : Finset ℤ) ≠ ∅
    ∧ (∀ t ∈ ({-1} : Finset ℤ), t ∉ bigOrder)
    ∧ ¬ (1 < compute_apfd bigOrder {-1}) := by
  have hlen : bigOrder.length = 20000 := by
    rw [bigOrder, List.length_map, List.length_range]
  have hne : bigOrder ≠ [] := by
    intro h
    rw [h] at hlen
    simp at hlen
  have hdis : ∀ t ∈ ({-1} : Finset ℤ), t ∉ bigOrder := by
    intro t ht
    rw [Finset.mem_singleton] at ht
    subst ht
    intro hmem
    obtain ⟨k, hk, hke⟩ := List.mem_map.mp hmem
    rw [List.mem_range] at hk
    omega
  refine ⟨hne, by decide, hdis, ?_⟩
  rw [compute_apfd_disjoint bigOrder {-1} hne (by decide) hdis,
    show (bigOrder.length : ℚ) = 20000 from by rw [hlen]; norm_num,
    pyRound_eq_of_lt 10000 (1 + 1 / (2 * 20000)) 4 (by norm_num) (by norm_num)]
  norm_num

theorem inter_card_eq_iff (s failing : Finset ℤ) :
    (s ∩ failing).card = failing.card ↔ failing ⊆ s := by
  constructor
  · intro h
    have heq : s ∩ failing = failing :=
      Finset.eq_of_subset_of_card_le Finset.inter_subset_right (le_of_eq h.symm)
    intro x hx
    rw [← heq] at hx
    exact (Finset.mem_inter.mp hx).1
  · intro h
    have heq : s ∩ failing = failing := by
      ext x
      rw [Finset.mem_inter]
      exact ⟨fun hx => hx.2, fun hx => ⟨h hx, hx⟩⟩
    rw [heq]

theorem wastedGo_eq_specWastedGo (failing : Finset ℤ) (order : List ℤ) :
    ∀ (seen : Finset ℤ) (wasted : Nat), order.Nodup →
      (∀ t ∈ order, t ∉ seen) → ¬ failing ⊆ seen →
      wastedGo failing ((seen ∩ failing).card) wasted order
        = wasted + specWastedGo failing seen order := by
  induction order with
  | nil => intro seen wasted _ _ _; simp [wastedGo, specWastedGo]
  | cons t rest ih =>
    intro seen wasted hnd hsn hnsub
    rw [List.nodup_cons] at hnd
    obtain ⟨htr, hndr⟩ := hnd
    have htseen : t ∉ seen := hsn t (List.mem_cons_self t rest)
    have hsn2 : ∀ u ∈ rest, u ∉ insert t seen := by
      intro u hu
      rw [Finset.mem_insert, not_or]
      exact ⟨fun he => htr (he ▸ hu), hsn u (List.mem_cons_of_mem t hu)⟩
    by_cases htf : t ∈ failing
    · have hcard : ((insert t seen) ∩ failing).card = (seen ∩ failing).card + 1 := by
        rw [Finset.insert_inter_of_mem htf,
          Finset.card_insert_of_not_mem (fun hc => htseen (Finset.mem_inter.mp hc).1)]
      by_cases hstop : failing ⊆ insert t seen
      · have hc2 : (seen ∩ failing).card + 1 = failing.card := by
          rw [← hcard]
          exact (inter_card_eq_iff (insert t seen) failing).mpr hstop
        rw [wastedGo, if_pos htf, if_pos htf, if_pos hc2,
          specWastedGo, if_pos htf, if_pos hstop]
        omega
      · have hc2 : (seen ∩ failing).card + 1 ≠ failing.card := by
          rw [← hcard]
          exact fun hc => hstop ((inter_card_eq_iff (insert t seen) failing).mp hc)
        rw [wastedGo, if_pos htf, if_pos htf, if_neg hc2,
          specWastedGo, if_pos htf, if_neg hstop]
        rw [← hcard]
        rw [ih (insert t seen) wasted hndr hsn2 hstop]
        omega
    · have hcard : ((insert t seen) ∩ failing).card = (seen ∩ failing).card := by
        rw [Finset.insert_inter_of_not_mem htf]
      have hstop : ¬ failing ⊆ insert t seen := by
        intro hc
        apply hnsub
        intro x hx
        rcases Finset.mem_insert.mp (hc hx) with rfl | hxs
        · exact absurd hx htf
        · exact hxs
      have hc2 : (seen ∩ failing).card ≠ failing.card :=
        fun hc => hnsub ((inter_card_eq_iff seen failing).mp hc)
      rw [wastedGo, if_neg htf, if_neg htf, if_neg hc2,
        specWastedGo, if_neg htf, if_neg hstop]
      rw [← hcard]
      rw [ih (insert t seen) (wasted + 1) hndr hsn2 hstop]
      omega

/-- C7: on a duplicate-free order, `calculate_wasted_effort` is exactly the
spec's prefix scan — it counts the non-failing ids encountered before the
scan has seen every failing id (or the order is exhausted), returning 0 when
the failing set is empty; on the literal example it gives
`wasted_effort([1,2,3], {3}) = 2`. -/
theorem C7_wasted_effort :
    (∀ (order : List ℤ) (failing : Finset ℤ), order.Nodup →
      calculate_wasted_effort order failing = specWasted order failing)
    ∧ calculate_wasted_effort [1, 2, 3] {3} = 2 := by
  constructor
  · intro order failing hnd
    by_cases hf : failing = ∅
    · rw [calculate_wasted_effort, if_pos hf, specWasted, if_pos hf]
    · rw [calculate_wasted_effort, if_neg hf, specWasted, if_neg hf]
      have h0 : ((∅ : Finset ℤ) ∩ failing).card = 0 := by simp
      have := wastedGo_eq_specWastedGo failing order ∅ 0 hnd
        (by intro t _ hc; simp at hc)
        (by intro hc
            exact hf (Finset.eq_empty_of_forall_not_mem
              (fun x hx => by simpa using hc hx)))
      rw [h0] at this
      simpa using this
  · decide

theorem C7_witness :
    calculate_wasted_effort [1, 2, 3] ({3} : Finset ℤ) = specWasted [1, 2, 3] {3} :=
  C7_wasted_effort.1 [1, 2, 3] {3} (by decide)

/-- C2 counterexample: a well-formed testcase and a single feedback entry
whose `result` is the plain status string `"fail"` — a shape the data model
explicitly allows — make `compute_frc` raise (the comprehension
`f["result"]["status"]` indexes into a string), embedded as `none`. -/
theorem C2_counterexample :
    compute_frc
      { id := some 1, name := none, component := some "login",
        selector := some "#a", ui_element := none, execution_time := none,
        last_result := none, flaky := none }
      "x" [{ test_id := 1, result := some (ResultShape.rstr "fail") }] = none := by
  decide

theorem frcStatuses_isSome (tid : ℤ) (fh : List FeedbackEntry)
    (h : ∀ f ∈ fh, f.test_id = tid → ∃ st, f.result = some (ResultShape.robj (some st))) :
    ∃ l, frcStatuses tid fh = some l := by
  induction fh with
  | nil => exact ⟨[], rfl⟩
  | cons f fs ih =>
    have ihs := ih (fun g hg => h g (List.mem_cons_of_mem f hg))
    obtain ⟨l, hl⟩ := ihs
    by_cases hft : f.test_id = tid
    · obtain ⟨st, hst⟩ := h f (List.mem_cons_self f fs) hft
      refine ⟨st :: l, ?_⟩
      rw [frcStatuses, if_pos hft, hst, hl]
      rfl
    · exact ⟨l, by rw [frcStatuses, if_neg hft, hl]⟩

/-- C2 (amended): `compute_frc` never raises provided every feedback entry
matching the testcase id carries its `result` as an object with a `status`
field; the plain-string form (and any other malformed shape) on a matching
entry makes the failure-history computation raise instead of degrading.
Missing testcase fields still degrade to the lenient defaults. -/
theorem C2_frc_no_raise :
    ∀ (tc : TestCase) (cs : String) (fh : List FeedbackEntry),
      (∀ f ∈ fh, ∀ tid, tc.id = some tid → f.test_id = tid →
        ∃ st, f.result = some (ResultShape.robj (some st))) →
      ∃ v, compute_frc tc cs fh = some v := by
  intro tc cs fh h
  rw [compute_frc]
  suffices hs : ∃ w, computeFailureHistoryScore tc fh = some w by
    obtain ⟨w, hw⟩ := hs
    exact ⟨_, by rw [hw]; rfl⟩
  rcases hid : tc.id with _ | tid
  · exact ⟨0, by simp only [computeFailureHistoryScore, hid]⟩
  · by_cases hz : tid = 0 ∨ fh = []
    · exact ⟨0, by simp only [computeFailureHistoryScore, hid, if_pos hz]⟩
    · obtain ⟨l, hl⟩ := frcStatuses_isSome tid fh
        (fun f hf hft => h f hf tid hid hft)
      have hsome : (computeFailureHistoryScore tc fh).isSome = true := by
        simp only [computeFailureHistoryScore, hid, if_neg hz, hl, Option.map_some']
        rfl
      exact Option.isSome_iff_exists.mp hsome

theorem C2_witness :
    ∃ v, compute_frc
      { id := some 1, name := none, component := some "login",
        selector := some "#a", ui_element := none, execution_time := none,
        last_result := none, flaky := none }
      "x" [{ test_id := 1, result := some (ResultShape.robj (some "fail")) }] = some v :=
  C2_frc_no_raise _ "x" _ (by
    intro f hf tid hid hft
    rw [List.mem_singleton] at hf
    subst hf
    exact ⟨"fail", rfl⟩)

/-- C9: `compute_risk_score` is strict about `component`, `ui_element`,
`selector` and `execution_time`: if any of them is missing the call raises
(first conjunct), and when all four are present the only field whose absence
can still raise is `id` (second conjunct) — the call never fails on account
of those four. -/
theorem C9_risk_strict_fields :
    ∀ (tc : TestCase) (cs : String) (fh : List FeedbackEntry),
      ((tc.component = none ∨ tc.ui_element = none ∨ tc.selector = none
          ∨ tc.execution_time = none) →
        ∃ e, compute_risk_score tc cs fh = Except.error e)
      ∧ (tc.component ≠ none → tc.ui_element ≠ none → tc.selector ≠ none →
          tc.execution_time ≠ none →
          ∀ e, compute_risk_score tc cs fh = Except.error e → e = "id") := by
  intro tc cs fh
  constructor
  · intro hmiss
    rcases hcomp : tc.component with _ | comp
    · exact ⟨"component", by simp only [compute_risk_score, hcomp]⟩
    · rcases hui : tc.ui_element with _ | ui
      · exact ⟨"ui_element", by simp only [compute_risk_score, hcomp, hui]⟩
      · rcases hsel : tc.selector with _ | sel
        · exact ⟨"selector", by simp only [compute_risk_score, hcomp, hui, hsel]⟩
        · rcases hid2 : tc.id with _ | tid
          · exact ⟨"id", by simp only [compute_risk_score, hcomp, hui, hsel, hid2]⟩
          · rcases het : tc.execution_time with _ | et
            · exact ⟨"execution_time",
                by simp only [compute_risk_score, hcomp, hui, hsel, hid2, het]⟩
            · rcases hmiss with h | h | h | h <;> simp_all
  · intro h1 h2 h3 h4 e he
    rcases hcomp : tc.component with _ | comp
    · exact absurd hcomp h1
    rcases hui : tc.ui_element with _ | ui
    · exact absurd hui h2
    rcases hsel : tc.selector with _ | sel
    · exact absurd hsel h3
    rcases het : tc.execution_time with _ | et
    · exact absurd het h4
    rcases hid2 : tc.id with _ | tid
    · simp only [compute_risk_score, hcomp, hui, hsel, hid2, het] at he
      injection he with hinj
      exact hinj.symm
    · simp only [compute_risk_score, hcomp, hui, hsel, hid2, het] at he
      exact Except.noConfusion he

def tcC9w : TestCase :=
  { id := some 1, name := none, component := none, selector := some "#a",
    ui_element := some "button", execution_time := some 1, last_result := none,
    flaky := none }

theorem C9_witness :
    ∃ e, compute_risk_score tcC9w "x" [] = Except.error e :=
  (C9_risk_strict_fields tcC9w "x" []).1 (Or.inl rfl)

/-- C8: a testcase whose component `"Login"` occurs (case-insensitively) in
the change summary `"Refactored Login flow"`, whose `ui_element` is
`"button"`, whose selector does not occur in the summary, whose execution
time is at most 4, and with no feedback history, scores exactly 7 with the
reason string `"Component changed, Important UI element"`. -/
theorem C8_login_button_example :
    ∀ (i : ℤ) (nm lr : Option String) (fl : Option Bool) (sel : String) (et : ℚ),
      containsStr "Refactored Login flow" sel = false → et ≤ 4 →
      compute_risk_score
        { id := some i, name := nm, component := some "Login", selector := some sel,
          ui_element := some "button", execution_time := some et, last_result := lr,
          flaky := fl }
        "Refactored Login flow" []
        = Except.ok (7, "Component changed, Important UI element") := by
  intro i nm lr fl sel et hsel het
  have hcomp : containsStr (strLower "Refactored Login flow") (strLower "Login") = true := by
    decide
  have hnot : ¬ (4 : ℚ) < et := not_lt.mpr het
  simp only [compute_risk_score, riskHistory, List.filter_nil, List.map_nil, hcomp, hsel,
    if_true, Bool.false_eq_true, if_false, if_neg hnot, List.count_nil, takeLast,
    List.length_nil, List.drop_nil, List.not_mem_nil, false_and, and_false]
  norm_num
  decide

theorem C8_witness :
    compute_risk_score
      { id := some 1, name := none, component := some "Login", selector := some "#z",
        ui_element := some "button", execution_time := some 1, last_result := none,
        flaky := none }
      "Refactored Login flow" []
      = Except.ok (7, "Component changed, Important UI element") :=
  C8_login_button_example 1 none none none "#z" 1 (by decide) (by norm_num)

theorem pyRound4_nonneg (q : ℚ) (h : 0 ≤ q) : 0 ≤ pyRound q 4 := by
  have hl := le_halfEven (q * 10 ^ 4)
  have h0 : (0 : ℚ) ≤ q * 10 ^ 4 := by positivity
  have h1 : (-1 : ℚ) < (halfEven (q * 10 ^ 4) : ℚ) := by
    generalize hX : ((halfEven (q * 10 ^ 4) : ℤ) : ℚ) = X at hl ⊢
    linarith
  have h2 : (-1 : ℤ) < halfEven (q * 10 ^ 4) := by exact_mod_cast h1
  have h3 : (0 : ℤ) ≤ halfEven (q * 10 ^ 4) := by omega
  rw [pyRound]
  apply div_nonneg _ (by norm_num)
  exact_mod_cast h3

theorem pyRound4_le_one (q : ℚ) (h : q ≤ 1) : pyRound q 4 ≤ 1 := by
  have hu := halfEven_le (q * 10 ^ 4)
  have h0 : q * 10 ^ 4 ≤ 10 ^ 4 := by nlinarith
  have h1 : (halfEven (q * 10 ^ 4) : ℚ) < 10 ^ 4 + 1 := by
    generalize hX : ((halfEven (q * 10 ^ 4) : ℤ) : ℚ) = X at hu ⊢
    linarith
  have h2 : halfEven (q * 10 ^ 4) < 10 ^ 4 + 1 := by exact_mod_cast h1
  have h3 : halfEven (q * 10 ^ 4) ≤ 10 ^ 4 := by omega
  rw [pyRound, div_le_one (by norm_num : (0 : ℚ) < 10 ^ 4)]
  exact_mod_cast h3

theorem lookupExact_mem_values :
    ∀ (t : List (String × ℚ)) (s : String) (v : ℚ),
      lookupExact t s = some v → ∃ p ∈ t, p.2 = v := by
  intro t
  induction t with
  | nil => intro s v h; exact absurd h (by simp [lookupExact])
  | cons p rest ih =>
    intro s v h
    rw [lookupExact] at h
    split_ifs at h with hk
    · exact ⟨p, List.mem_cons_self p rest, by injection h⟩
    · obtain ⟨q, hq, hqv⟩ := ih s v h
      exact ⟨q, List.mem_cons_of_mem p hq, hqv⟩

theorem lookupSub_mem_values :
    ∀ (t : List (String × ℚ)) (s : String) (v : ℚ),
      lookupSub t s = some v → ∃ p ∈ t, p.2 = v := by
  intro t
  induction t with
  | nil => intro s v h; exact absurd h (by simp [lookupSub])
  | cons p rest ih =>
    intro s v h
    rw [lookupSub] at h
    split_ifs at h with hk
    · exact ⟨p, List.mem_cons_self p rest, by injection h⟩
    · obtain ⟨q, hq, hqv⟩ := ih s v h
      exact ⟨q, List.mem_cons_of_mem p hq, hqv⟩

theorem crit_table_bound :
    ∀ p ∈ COMPONENT_CRITICALITY, 0 ≤ p.2 ∧ p.2 ≤ 1 := by
  intro p hp
  fin_cases hp <;> norm_num

theorem getComponentCriticality_mem (s : String) :
    0 ≤ getComponentCriticality s ∧ getComponentCriticality s ≤ 1 := by
  rw [getComponentCriticality]
  rcases hE : lookupExact COMPONENT_CRITICALITY (strLower s) with _ | v
  · rcases hS : lookupSub COMPONENT_CRITICALITY (strLower s) with _ | w
    · simp only [Option.none_orElse', Option.getD_none]
      norm_num
    · obtain ⟨p, hp, hpv⟩ := lookupSub_mem_values _ _ _ hS
      have hb := crit_table_bound p hp
      simp only [Option.none_orElse', Option.getD_some]
      rw [← hpv]
      exact hb
  · obtain ⟨p, hp, hpv⟩ := lookupExact_mem_values _ _ _ hE
    have hb := crit_table_bound p hp
    simp only [Option.some_orElse', Option.getD_some]
    rw [← hpv]
    exact hb

theorem recentWeight_nonneg (l : List String) : 0 ≤ recentWeight l := by
  induction l with
  | nil => simp [recentWeight]
  | cons s rest ih =>
    rw [recentWeight]
    have : (0 : ℚ) ≤ (if s = "fail" then ((1 : ℚ)/2) ^ rest.length else 0) := by
      split_ifs <;> positivity
    linarith

theorem cssFragBase_nonneg (n : ℕ) : (0 : ℚ) ≤ min ((n : ℚ) * 0.05) 0.2 :=
  le_min (by positivity) (by norm_num)

theorem computeSelectorFragility_mem (s : String) :
    0 ≤ computeSelectorFragility s ∧ computeSelectorFragility s ≤ 1 := by
  have hbase := cssFragBase_nonneg (max (charCount s ' ') (charCount s '>'))
  rw [computeSelectorFragility]
  by_cases h1 : s = ""
  · rw [if_pos h1]
    norm_num
  rw [if_neg h1]
  by_cases h2 : (startsWithStr s "//" || startsWithStr s ".//" || startsWithStr s "/") = true
  · rw [if_pos h2]
    dsimp only
    refine ⟨le_min ?_ (by norm_num), min_le_right _ _⟩
    split_ifs <;> norm_num
  · rw [if_neg h2]
    dsimp only
    refine ⟨le_min ?_ (by norm_num), min_le_right _ _⟩
    by_cases h3 : startsWithStr s "#" = true
    · rw [if_pos h3]
      exact le_max_left 0 _
    · rw [if_neg h3]
      split_ifs <;> linarith

theorem computeFailureHistoryScore_mem (tc : TestCase) (fh : List FeedbackEntry) (v : ℚ)
    (h : computeFailureHistoryScore tc fh = some v) : 0 ≤ v ∧ v ≤ 1 := by
  rcases hid : tc.id with _ | tid
  · simp only [computeFailureHistoryScore, hid] at h
    injection h with h
    subst h
    norm_num
  · simp only [computeFailureHistoryScore, hid] at h
    by_cases hz : tid = 0 ∨ fh = []
    · rw [if_pos hz] at h
      injection h with h
      subst h
      norm_num
    · rw [if_neg hz] at h
      rcases hst : frcStatuses tid fh with _ | results
      · rw [hst] at h
        exact absurd h (by simp)
      · rw [hst, Option.map_some'] at h
        injection h with h
        subst h
        by_cases hres : results = []
        · rw [if_pos hres]
          norm_num
        · rw [if_neg hres]
          have hfr : (0 : ℚ) ≤ (if 0 < results.length
              then ((results.count "fail" : ℚ) / (results.length : ℚ)) else 0) := by
            split_ifs with hlen
            · positivity
            · exact le_refl 0
          have hmin : (0 : ℚ) ≤ min (recentWeight (takeLast 5 results) / 5) 1 ∧
              min (recentWeight (takeLast 5 results) / 5) 1 ≤ 1 := by
            constructor
            · refine le_min ?_ (by norm_num)
              have := recentWeight_nonneg (takeLast 5 results)
              positivity
            · exact min_le_right _ _
          constructor
          · refine le_min ?_ (by norm_num)
            have h1 : (0 : ℚ) ≤ 0.7 * (if 0 < results.length
                then ((results.count "fail" : ℚ) / (results.length : ℚ)) else 0) :=
              mul_nonneg (by norm_num) hfr
            have h2 : (0 : ℚ) ≤ 0.3 * min (recentWeight (takeLast 5 results) / 5) 1 :=
              mul_nonneg (by norm_num) hmin.1
            linarith
          · exact min_le_right _ _

theorem compute_frc_mem (tc : TestCase) (cs : String) (fh : List FeedbackEntry) (v : ℚ)
    (h : compute_frc tc cs fh = some v) : 0 ≤ v ∧ v ≤ 1 := by
  rw [compute_frc] at h
  rcases hw : computeFailureHistoryScore tc fh with _ | w
  · rw [hw] at h
    exact absurd h (by simp)
  · rw [hw, Option.map_some'] at h
    injection h with h
    subst h
    have hwb := computeFailureHistoryScore_mem tc fh w hw
    have hcrit := getComponentCriticality_mem (tc.component.getD "")
    have hfrag := computeSelectorFragility_mem (tc.selector.getD "")
    have hflak : (0 : ℚ) ≤ (if tc.flaky.getD false then (1 : ℚ) else 0) := by
      split_ifs <;> norm_num
    have hinner : (0 : ℚ) ≤ min (0.4 * w + 0.3 * getComponentCriticality (tc.component.getD "")
        + 0.2 * computeSelectorFragility (tc.selector.getD "")
        + 0.1 * (if tc.flaky.getD false then (1 : ℚ) else 0)) 1
        ∧ min (0.4 * w + 0.3 * getComponentCriticality (tc.component.getD "")
        + 0.2 * computeSelectorFragility (tc.selector.getD "")
        + 0.1 * (if tc.flaky.getD false then (1 : ℚ) else 0)) 1 ≤ 1 := by
      constructor
      · refine le_min ?_ (by norm_num)
        have h1 := mul_nonneg (by norm_num : (0:ℚ) ≤ 0.4) hwb.1
        have h2 := mul_nonneg (by norm_num : (0:ℚ) ≤ 0.3) hcrit.1
        have h3 := mul_nonneg (by norm_num : (0:ℚ) ≤ 0.2) hfrag.1
        have h4 := mul_nonneg (by norm_num : (0:ℚ) ≤ 0.1) hflak
        linarith
      · exact min_le_right _ _
    exact ⟨pyRound4_nonneg _ hinner.1, pyRound4_le_one _ hinner.2⟩

theorem compute_combined_mem (tc : TestCase) (cs : String) (fh : List FeedbackEntry)
    (c : ℚ) (r : String) (h : compute_combined_score tc cs fh true = some (c, r)) :
    0 ≤ c ∧ c ≤ 1 := by
  rw [compute_combined_score] at h
  rcases hrisk : compute_risk_score tc cs fh with e | p
  · simp only [hrisk] at h
    exact Option.noConfusion h
  · obtain ⟨risk, rr⟩ := p
    simp only [hrisk] at h
    rw [if_neg (by simp : ¬(true = false))] at h
    rcases hfrc : compute_frc tc cs fh with _ | frc
    · simp only [hfrc] at h
      exact Option.noConfusion h
    · simp only [hfrc] at h
      have hfb := compute_frc_mem tc cs fh frc hfrc
      have hnr : (0 : ℚ) ≤ max 0 (min (if risk ≠ 0
            then (risk : ℚ) / (((|risk| : ℤ) : ℚ) + 10) else 0) 1)
          ∧ max 0 (min (if risk ≠ 0
            then (risk : ℚ) / (((|risk| : ℤ) : ℚ) + 10) else 0) 1) ≤ 1 := by
        constructor
        · exact le_max_left 0 _
        · rw [max_le_iff]
          exact ⟨by norm_num, min_le_right _ _⟩
      set nr := max 0 (min (if risk ≠ 0
        then (risk : ℚ) / (((|risk| : ℤ) : ℚ) + 10) else 0) 1) with hnrdef
      have hcv : c = pyRound (0.4 * nr + 0.4 * frc + 0.2 * 0.5) 4 := by
        simp only [Option.some.injEq, Prod.mk.injEq] at h
        exact h.1.symm
      rw [hcv]
      have hlow : (0 : ℚ) ≤ 0.4 * nr + 0.4 * frc + 0.2 * 0.5 := by
        have h1 := mul_nonneg (by norm_num : (0:ℚ) ≤ 0.4) hnr.1
        have h2 := mul_nonneg (by norm_num : (0:ℚ) ≤ 0.4) hfb.1
        linarith
      have hhigh : 0.4 * nr + 0.4 * frc + 0.2 * 0.5 ≤ 1 := by
        have h1 := mul_le_mul_of_nonneg_left hnr.2 (by norm_num : (0:ℚ) ≤ 0.4)
        have h2 := mul_le_mul_of_nonneg_left hfb.2 (by norm_num : (0:ℚ) ≤ 0.4)
        linarith
      exact ⟨pyRound4_nonneg _ hlow, pyRound4_le_one _ hhigh⟩

/-- C4: every value `compute_frc` returns lies in [0, 1], and every combined
score `compute_combined_score` returns in FRC mode (`use_frc = true`) lies
in [0, 1]. -/
theorem C4_scores_bounded :
    (∀ (tc : TestCase) (cs : String) (fh : List FeedbackEntry) (v : ℚ),
      compute_frc tc cs fh = some v → 0 ≤ v ∧ v ≤ 1)
    ∧ (∀ (tc : TestCase) (cs : String) (fh : List FeedbackEntry) (c : ℚ) (r : String),
      compute_combined_score tc cs fh true = some (c, r) → 0 ≤ c ∧ c ≤ 1) :=
  ⟨fun tc cs fh v h => compute_frc_mem tc cs fh v h,
   fun tc cs fh c r h => compute_combined_mem tc cs fh c r h⟩

/-- The spec's normalized risk: `risk/(abs(risk)+10)` clamped to [0, 1]
(written from the spec's words, to be compared with the code's branching
version that special-cases `risk == 0`). -/
def normalizedRiskSpec (s : ℤ) : ℚ :=
  max 0 (min ((s : ℚ) / (|(s : ℚ)| + 10)) 1)

/-- The spec's combined score `round(0.4*normalized_risk + 0.4*frc +
0.2*advisory_weight, 4)` with the neutral advisory weight 0.5. -/
def combinedSpec (s : ℤ) (frc : ℚ) : ℚ :=
  pyRound (0.4 * normalizedRiskSpec s + 0.4 * frc + 0.2 * 0.5) 4

/-- The spec's fixed reason-string format
`"Risk:{r} + FRC:{f} + LLM:{a} = Combined:{c}"` reporting the three
component values and the final combined value (two-decimal formatting, as
the code prints them). -/
def reasonSpec (s : ℤ) (frc : ℚ) : String :=
  "Risk:" ++ fmt2 (normalizedRiskSpec s) ++ " + FRC:" ++ fmt2 frc
    ++ " + LLM:0.5 = Combined:" ++ fmt2 (combinedSpec s frc)

theorem nr_branch_eq (s : ℤ) :
    max 0 (min (if s ≠ 0 then (s : ℚ) / (((|s| : ℤ) : ℚ) + 10) else 0) 1)
      = normalizedRiskSpec s := by
  rw [normalizedRiskSpec]
  by_cases hs : s = 0
  · subst hs
    norm_num
  · rw [if_pos hs, Int.cast_abs]

/-- C5: with `use_frc = false`, `compute_combined_score` returns the
RiskScorer score and reason unchanged; with `use_frc = true` it returns
`round(0.4*normalized_risk + 0.4*frc + 0.2*0.5, 4)` — where the normalized
risk is `risk/(|risk|+10)` clamped to [0, 1] and the advisory weight is the
neutral 0.5 — together with the fixed-format reason string reporting all
three components and the combined value. -/
theorem C5_combined_formula :
    ∀ (tc : TestCase) (cs : String) (fh : List FeedbackEntry),
      (∀ (s : ℤ) (r : String), compute_risk_score tc cs fh = Except.ok (s, r) →
        compute_combined_score tc cs fh false = some ((s : ℚ), r))
      ∧ (∀ (s : ℤ) (r : String) (frc : ℚ),
          compute_risk_score tc cs fh = Except.ok (s, r) →
          compute_frc tc cs fh = some frc →
          compute_combined_score tc cs fh true
            = some (combinedSpec s frc, reasonSpec s frc)) := by
  intro tc cs fh
  constructor
  · intro s r h
    simp only [compute_combined_score, h, if_true]
  · intro s r frc h hfrc
    simp only [compute_combined_score, h, hfrc]
    rw [if_neg (by simp : ¬(true = false)), nr_branch_eq s, reasonSpec, combinedSpec]

def tcW4 : TestCase :=
  { id := some 1, name := none, component := some "settings", selector := some "#s",
    ui_element := some "div", execution_time := some 1, last_result := none,
    flaky := some false }

def frcW4 : ℚ :=
  pyRound (min (0.4 * 0 + 0.3 * getComponentCriticality "settings"
    + 0.2 * computeSelectorFragility "#s" + 0.1 * 0) 1) 4

theorem C4_witness :
    (0 ≤ frcW4 ∧ frcW4 ≤ 1)
    ∧ (0 ≤ pyRound (0.4 * (max 0 (min 0 1)) + 0.4 * frcW4 + 0.2 * 0.5) 4
        ∧ pyRound (0.4 * (max 0 (min 0 1)) + 0.4 * frcW4 + 0.2 * 0.5) 4 ≤ 1) :=
  ⟨C4_scores_bounded.1 tcW4 "x" [] frcW4 rfl,
   C4_scores_bounded.2 tcW4 "x" []
     (pyRound (0.4 * (max 0 (min 0 1)) + 0.4 * frcW4 + 0.2 * 0.5) 4)
     ("Risk:" ++ fmt2 (max 0 (min 0 1)) ++ " + FRC:" ++ fmt2 frcW4
       ++ " + LLM:0.5 = Combined:"
       ++ fmt2 (pyRound (0.4 * (max 0 (min 0 1)) + 0.4 * frcW4 + 0.2 * 0.5) 4))
     rfl⟩

def tcW5 : TestCase :=
  { id := some 1, name := none, component := some "cart", selector := some "#c",
    ui_element := some "button", execution_time := some 1, last_result := none,
    flaky := some false }

def frcW5 : ℚ :=
  pyRound (min (0.4 * 0 + 0.3 * getComponentCriticality "cart"
    + 0.2 * computeSelectorFragility "#c" + 0.1 * 0) 1) 4

theorem C5_witness :
    compute_combined_score tcW5 "x" [] false
      = some (((2 : ℤ) : ℚ), "Important UI element")
    ∧ compute_combined_score tcW5 "x" [] true
      = some (combinedSpec 2 frcW5, reasonSpec 2 frcW5) :=
  ⟨(C5_combined_formula tcW5 "x" []).1 2 "Important UI element" rfl,
   (C5_combined_formula tcW5 "x" []).2 2 "Important UI element" frcW5 rfl rfl⟩
